import Mathlib

set_option maxHeartbeats 1000000

namespace OpusMCP

/-- Token kinds of the category-expression lexer, mirroring the Go
constant block of `tokenType` in `internal/parser/parser.go`. -/
inductive tokenType where
  | tokenIdent
  | tokenAnd
  | tokenOr
  | tokenNot
  | tokenLParen
  | tokenRParen
  | tokenEOF
deriving DecidableEq, Repr

/-- A lexical token: a kind and, for identifiers, the original text
(the Go `token` struct with fields `Type` and `Value`). -/
structure token where
  type : tokenType
  value : String
deriving DecidableEq, Repr

instance {ε α : Type} [DecidableEq ε] [DecidableEq α] : DecidableEq (Except ε α) :=
  fun x y =>
    match x, y with
    | Except.error a, Except.error b =>
      if h : a = b then isTrue (by rw [h]) else isFalse (by simp [h])
    | Except.error _, Except.ok _ => isFalse (by simp)
    | Except.ok _, Except.error _ => isFalse (by simp)
    | Except.ok a, Except.ok b =>
      if h : a = b then isTrue (by rw [h]) else isFalse (by simp [h])

/-- Whitespace per Go's `unicode.IsSpace` (used by `strings.Fields`):
the Unicode White_Space code points. -/
def goIsSpace (c : Char) : Bool :=
  c = ' ' || c = '\t' || c = '\n' || c.toNat = 11 || c.toNat = 12 || c = '\r' ||
  c.toNat = 0x85 || c.toNat = 0xA0 || c.toNat = 0x1680 ||
  (0x2000 ≤ c.toNat && c.toNat ≤ 0x200A) ||
  c.toNat = 0x2028 || c.toNat = 0x2029 || c.toNat = 0x202F ||
  c.toNat = 0x205F || c.toNat = 0x3000

/-- Split a character list into the maximal runs of non-whitespace
characters, as Go's `strings.Fields`; `acc` holds the characters of the
current field in reverse. -/
def fieldsAux : List Char → List Char → List String
  | [], [] => []
  | [], acc => [String.mk acc.reverse]
  | c :: cs, acc =>
    if goIsSpace c then
      match acc with
      | [] => fieldsAux cs []
      | _ :: _ => String.mk acc.reverse :: fieldsAux cs []
    else fieldsAux cs (c :: acc)

/-- Go's `strings.Fields`. -/
def goFields (s : String) : List String := fieldsAux s.data []

/-- Go's `strings.ReplaceAll` for a single-character pattern. -/
def goReplaceAllChar (s : String) (pat : Char) (rep : List Char) : String :=
  String.mk (s.data.flatMap fun c => if c = pat then rep else [c])

/-- The whitespace padding of the five meta-characters: the chain of the
five `strings.ReplaceAll` calls at the start of the Go `lex`. -/
def padMeta (s : String) : String :=
  goReplaceAllChar (goReplaceAllChar (goReplaceAllChar (goReplaceAllChar
    (goReplaceAllChar s '(' [' ', '(', ' ']) ')' [' ', ')', ' '])
    '+' [' ', '+', ' ']) '-' [' ', '-', ' ']) '|' [' ', '|', ' ']

/-- The five meta-characters that `lex` pads with whitespace. -/
def metaChars : List Char := ['(', ')', '+', '-', '|']

/-- Single-pass form of `padMeta`: what one character expands to. -/
def padChar (c : Char) : List Char :=
  if c ∈ metaChars then [' ', c, ' '] else [c]

/-- Go's `strings.ToUpper`. `Char.toUpper` agrees with Go's Unicode
uppercasing on every comparison `lex` makes, because only the ASCII
lowercase letters uppercase to the letters of AND, OR and NOT, and
uppercasing fixes the meta-characters. -/
def goUpper (s : String) : String := String.mk (s.data.map Char.toUpper)

/-- Classification of one whitespace-separated field: the switch
statement in the loop of the Go `lex`. -/
def classifyField (f : String) : token :=
  let u := goUpper f
  if u = "AND" || u = "+" then ⟨tokenType.tokenAnd, "AND"⟩
  else if u = "OR" || u = "|" then ⟨tokenType.tokenOr, "OR"⟩
  else if u = "NOT" || u = "-" then ⟨tokenType.tokenNot, "NOT"⟩
  else if u = "(" then ⟨tokenType.tokenLParen, "("⟩
  else if u = ")" then ⟨tokenType.tokenRParen, ")"⟩
  else ⟨tokenType.tokenIdent, f⟩

/-- The Go `lex`: pad the meta-characters, split into fields, classify
each field, and append the EOF sentinel. -/
def lex (input : String) : List token :=
  (goFields (padMeta input)).map classifyField ++ [⟨tokenType.tokenEOF, ""⟩]

/-- List-level prefix test (spelled out so that proofs are structural). -/
def isPrefixOfL : List Char → List Char → Bool
  | [], _ => true
  | _ :: _, [] => false
  | p :: ps, c :: cs => p = c && isPrefixOfL ps cs

/-- Go's `strings.HasPrefix s pre`. -/
def hasPrefixGo (s pre : String) : Bool := isPrefixOfL pre.data s.data

/-- Go's `strings.HasSuffix s suf`. -/
def hasSuffixGo (s suf : String) : Bool := isPrefixOfL suf.data.reverse s.data.reverse

/-- Go's `strings.Join`. -/
def goJoin : List String → String → String
  | [], _ => ""
  | [x], _ => x
  | x :: xs, sep => x ++ sep ++ goJoin xs sep

/-- The implicit-AND test of the strict `parseExpression` (parser.go
lines 168-176): the most recently appended part looks like a term
(decorated identifier or closing parenthesis) and the current token is
term-starting (identifier or opening parenthesis). -/
def needImplicitAnd (parts : List String) (tt : tokenType) : Bool :=
  match parts.getLast? with
  | none => false
  | some last =>
    (hasPrefixGo last "cat:" || hasSuffixGo last ")") &&
    (tt = tokenType.tokenIdent || tt = tokenType.tokenLParen)

/-- The tail of the strict `parseExpression` (parser.go lines 193-201):
consume one closing parenthesis if it stopped the loop, join the parts
with a literal plus, and fail when the joined result is empty. -/
def finishLevel (parts : List String) (ts : List token) :
    Except String (String × List token) :=
  let rest := match ts with
    | t :: r => if t.type = tokenType.tokenRParen then r else t :: r
    | [] => []
  let result := goJoin parts "+"
  if result = "" then Except.error "empty expression"
  else Except.ok (result, rest)

/-- One level of the recursive-descent loop of the strict
`parseExpression` (parser.go lines 156-202), acting on the unconsumed
suffix of the token stream. The `fuel` argument exists only to exhibit
the recursion to Lean: it is never exhausted once it exceeds the number
of unconsumed tokens (`parseFuel_isSome`) and the value is then
independent of it (`parseFuel_congr`). -/
def parseFuel : Nat → List token → List String →
    Option (Except String (String × List token))
  | 0, _, _ => none
  | fuel + 1, ts, parts =>
    match ts with
    | [] => some (finishLevel parts [])
    | t :: rest =>
      if t.type = tokenType.tokenRParen ∨ t.type = tokenType.tokenEOF then
        some (finishLevel parts (t :: rest))
      else
        let parts' := if needImplicitAnd parts t.type then parts ++ ["AND"] else parts
        match t.type with
        | tokenType.tokenLParen =>
          match parseFuel fuel rest [] with
          | none => none
          | some (Except.error e) => some (Except.error e)
          | some (Except.ok (expr, rest')) =>
            parseFuel fuel rest' (parts' ++ ["(" ++ expr ++ ")"])
        | tokenType.tokenIdent => parseFuel fuel rest (parts' ++ ["cat:" ++ t.value])
        | tokenType.tokenAnd => parseFuel fuel rest (parts' ++ [t.value])
        | tokenType.tokenOr => parseFuel fuel rest (parts' ++ [t.value])
        | tokenType.tokenNot => parseFuel fuel rest (parts' ++ [t.value])
        | _ => parseFuel fuel rest parts'

/-- The strict `parseExpression` as a total function: the fuel
`ts.length + 1` always suffices (`parseFuel_isSome`), so the default
branch of `getD` is unreachable. -/
def parseExpression (ts : List token) (parts : List String) :
    Except String (String × List token) :=
  (parseFuel (ts.length + 1) ts parts).getD (Except.error "fuel exhausted")

/-- The strict entry point `ParseReconstructCategoryExpression`
(parser.go lines 204-212): parse the whole token stream from the start
and wrap the result in one outer parenthesis pair, ignoring whatever
tokens the top-level call left unconsumed. -/
def ParseReconstructCategoryExpression (input : String) : Except String String :=
  match parseExpression (lex input) [] with
  | Except.error e => Except.error e
  | Except.ok (expr, _) => Except.ok ("(" ++ expr ++ ")")

/-- Modelled from the spec: the source of `ParseReconstructGeneralExpression`
is not in the repository (only its tests call it). Following the spec:
each identifier is decorated as the caller-supplied prefix, then the
value, then the suffix; the implicit AND is inserted exactly when the
most recently appended part is a term (decorated identifier or closed
group) and the current token is term-starting; parts are joined with a
literal plus; an empty top-level result is the empty-expression error.
The term-ness of the last part is tracked by the flag `lastTerm`. -/
def parseGenFuel (pre suf : String) : Nat → List token → List String → Bool →
    Option (String × List token)
  | 0, _, _, _ => none
  | fuel + 1, ts, parts, lastTerm =>
    match ts with
    | [] => some (goJoin parts "+", [])
    | t :: rest =>
      if t.type = tokenType.tokenRParen ∨ t.type = tokenType.tokenEOF then
        some (goJoin parts "+",
          if t.type = tokenType.tokenRParen then rest else t :: rest)
      else
        let parts' :=
          if lastTerm &&
              (t.type = tokenType.tokenIdent || t.type = tokenType.tokenLParen) then
            parts ++ ["AND"]
          else parts
        match t.type with
        | tokenType.tokenLParen =>
          match parseGenFuel pre suf fuel rest [] false with
          | none => none
          | some (expr, rest') =>
            parseGenFuel pre suf fuel rest' (parts' ++ ["(" ++ expr ++ ")"]) true
        | tokenType.tokenIdent =>
          parseGenFuel pre suf fuel rest (parts' ++ [pre ++ t.value ++ suf]) true
        | tokenType.tokenAnd => parseGenFuel pre suf fuel rest (parts' ++ [t.value]) false
        | tokenType.tokenOr => parseGenFuel pre suf fuel rest (parts' ++ [t.value]) false
        | tokenType.tokenNot => parseGenFuel pre suf fuel rest (parts' ++ [t.value]) false
        | _ => parseGenFuel pre suf fuel rest parts' lastTerm

/-- Total wrapper of the general-variant level parser; the fuel
`ts.length + 1` always suffices (`parseGenFuel_isSome`). -/
def parseExpressionGen (pre suf : String) (ts : List token) (parts : List String)
    (lastTerm : Bool) : String × List token :=
  (parseGenFuel pre suf (ts.length + 1) ts parts lastTerm).getD ("", [])

/-- Modelled from the spec: the general entry point
`parse_general_expression` of spec section 6 — parse from the start,
fail with the empty-expression error when the top-level joined result is
empty, otherwise wrap it in one outer parenthesis pair. -/
def ParseReconstructGeneralExpression (input pre suf : String) :
    Except String String :=
  let expr := (parseExpressionGen pre suf (lex input) [] false).1
  if expr = "" then Except.error "empty expression"
  else Except.ok ("(" ++ expr ++ ")")

/-- An identifier token as `lex` produces it. -/
def identTok (w : String) : token := ⟨tokenType.tokenIdent, w⟩

/-- The EOF sentinel token appended by `lex`. -/
def eofTok : token := ⟨tokenType.tokenEOF, ""⟩

/-- A decorated identifier of the category variant. -/
def catDec (w : String) : String := "cat:" ++ w

/-- Parenthesis-balance scan: the running count of open parentheses,
`none` once the count would go negative. -/
def balAux : List Char → Int → Option Int
  | [], n => some n
  | c :: cs, n =>
    let m := if c = '(' then n + 1 else if c = ')' then n - 1 else n
    if m < 0 then none else balAux cs m

/-- A string whose parentheses are balanced: the scan never goes
negative and ends at zero. -/
def Balanced (s : String) : Prop := balAux s.data 0 = some 0

/-- An output part that the spec calls a term: a decorated identifier or
a fully parenthesized nested group. -/
def TermPart (p : String) : Prop :=
  (∃ v, p = "cat:" ++ v) ∨ (∃ e, p = "(" ++ e ++ ")")

/-- An output part that is a literal operator keyword. -/
def OpPart (p : String) : Prop := p = "AND" ∨ p = "OR" ∨ p = "NOT"

/-- A token that the top-level loop consumes without recursion or
stopping: an identifier or operator, with a nonempty value (as `lex`
always produces). -/
def simpleTok (t : token) : Prop :=
  (t.type = tokenType.tokenIdent ∨ t.type = tokenType.tokenAnd ∨
    t.type = tokenType.tokenOr ∨ t.type = tokenType.tokenNot) ∧ t.value ≠ ""

/-- On success the unconsumed remainder is a suffix of the input tokens:
the cursor only ever moves forward. -/
theorem parseFuel_suffix :
    ∀ (fuel : Nat) (ts : List token) (parts : List String) (s : String)
      (rest : List token),
      parseFuel fuel ts parts = some (Except.ok (s, rest)) → rest <:+ ts := by
  intro fuel
  induction fuel with
  | zero => intro ts parts s rest h; simp [parseFuel] at h
  | succ f ih =>
    intro ts parts s rest h
    match ts with
    | [] =>
      simp only [parseFuel, finishLevel] at h
      split at h
      · exact absurd h (by simp)
      · simp only [Option.some.injEq, Except.ok.injEq, Prod.mk.injEq] at h
        exact h.2 ▸ List.nil_suffix
    | t :: rest0 =>
      simp only [parseFuel] at h
      split at h
      · -- loop stops on RPAREN or EOF
        simp only [finishLevel] at h
        split at h
        · exact absurd h (by simp)
        · simp only [Option.some.injEq, Except.ok.injEq, Prod.mk.injEq] at h
          rcases h with ⟨-, h2⟩
          subst h2
          split
          · exact List.suffix_cons t rest0
          · exact List.suffix_refl _
      · -- loop body
        split at h
        · -- LPAREN: nested call then continue
          split at h
          · exact absurd h (by simp)
          · exact absurd h (by simp)
          · next expr rest' hsub =>
            have h1 : rest' <:+ rest0 := ih rest0 [] expr rest' hsub
            have h2 : rest <:+ rest' := ih rest' _ s rest h
            exact (h2.trans h1).trans (List.suffix_cons t rest0)
        · exact (ih rest0 _ s rest h).trans (List.suffix_cons t rest0)
        · exact (ih rest0 _ s rest h).trans (List.suffix_cons t rest0)
        · exact (ih rest0 _ s rest h).trans (List.suffix_cons t rest0)
        · exact (ih rest0 _ s rest h).trans (List.suffix_cons t rest0)
        · exact (ih rest0 _ s rest h).trans (List.suffix_cons t rest0)

/-- Any fuel exceeding the number of unconsumed tokens is enough: the
level parser never runs out, because every step consumes a token. -/
theorem parseFuel_isSome :
    ∀ (fuel : Nat) (ts : List token) (parts : List String),
      ts.length < fuel → (parseFuel fuel ts parts).isSome := by
  intro fuel
  induction fuel with
  | zero => intro ts parts h; exact absurd h (Nat.not_lt_zero _)
  | succ f ih =>
    intro ts parts h
    match ts with
    | [] => simp [parseFuel]
    | t :: rest =>
      have h1 : rest.length < f := Nat.lt_of_succ_lt_succ (by simpa using h)
      cases htt : t.type with
      | tokenRParen => simp [parseFuel, htt]
      | tokenEOF => simp [parseFuel, htt]
      | tokenLParen =>
        simp only [parseFuel, htt]
        rw [if_neg (by simp)]
        match hsub : parseFuel f rest [] with
        | none =>
          have h2 := ih rest [] h1
          rw [hsub] at h2
          simp at h2
        | some (Except.error e) => simp
        | some (Except.ok (expr, rest')) =>
          have hsuf := parseFuel_suffix f rest [] expr rest' hsub
          have h3 : rest'.length < f := lt_of_le_of_lt hsuf.length_le h1
          simpa using ih rest' _ h3
      | tokenIdent =>
        simp only [parseFuel, htt]
        rw [if_neg (by simp)]
        exact ih rest _ h1
      | tokenAnd =>
        simp only [parseFuel, htt]
        rw [if_neg (by simp)]
        exact ih rest _ h1
      | tokenOr =>
        simp only [parseFuel, htt]
        rw [if_neg (by simp)]
        exact ih rest _ h1
      | tokenNot =>
        simp only [parseFuel, htt]
        rw [if_neg (by simp)]
        exact ih rest _ h1

/-- Once the fuel exceeds the number of unconsumed tokens its exact
value is irrelevant. -/
theorem parseFuel_congr :
    ∀ (f g : Nat) (ts : List token) (parts : List String),
      ts.length < f → ts.length < g →
      parseFuel f ts parts = parseFuel g ts parts := by
  intro f
  induction f with
  | zero => intro g ts parts hf; exact absurd hf (Nat.not_lt_zero _)
  | succ f ih =>
    intro g ts parts hf hg
    match g with
    | 0 => exact absurd hg (Nat.not_lt_zero _)
    | g + 1 =>
      match ts with
      | [] => simp [parseFuel]
      | t :: rest =>
        have hf1 : rest.length < f := Nat.lt_of_succ_lt_succ (by simpa using hf)
        have hg1 : rest.length < g := Nat.lt_of_succ_lt_succ (by simpa using hg)
        cases htt : t.type with
        | tokenRParen => simp [parseFuel, htt]
        | tokenEOF => simp [parseFuel, htt]
        | tokenLParen =>
          have hcond : ¬(tokenType.tokenLParen = tokenType.tokenRParen ∨
              tokenType.tokenLParen = tokenType.tokenEOF) := by simp
          simp only [parseFuel, htt, if_neg hcond]
          rw [ih g rest [] hf1 hg1]
          match hsub : parseFuel g rest [] with
          | none => simp
          | some (Except.error e) => simp
          | some (Except.ok (expr, rest')) =>
            have hsuf := parseFuel_suffix g rest [] expr rest' hsub
            have hf2 : rest'.length < f := lt_of_le_of_lt hsuf.length_le hf1
            have hg2 : rest'.length < g := lt_of_le_of_lt hsuf.length_le hg1
            simpa using ih g rest' _ hf2 hg2
        | tokenIdent =>
          have hcond : ¬(tokenType.tokenIdent = tokenType.tokenRParen ∨
              tokenType.tokenIdent = tokenType.tokenEOF) := by simp
          simp only [parseFuel, htt, if_neg hcond]
          exact ih g rest _ hf1 hg1
        | tokenAnd =>
          have hcond : ¬(tokenType.tokenAnd = tokenType.tokenRParen ∨
              tokenType.tokenAnd = tokenType.tokenEOF) := by simp
          simp only [parseFuel, htt, if_neg hcond]
          exact ih g rest _ hf1 hg1
        | tokenOr =>
          have hcond : ¬(tokenType.tokenOr = tokenType.tokenRParen ∨
              tokenType.tokenOr = tokenType.tokenEOF) := by simp
          simp only [parseFuel, htt, if_neg hcond]
          exact ih g rest _ hf1 hg1
        | tokenNot =>
          have hcond : ¬(tokenType.tokenNot = tokenType.tokenRParen ∨
              tokenType.tokenNot = tokenType.tokenEOF) := by simp
          simp only [parseFuel, htt, if_neg hcond]
          exact ih g rest _ hf1 hg1

/-- The total wrapper agrees with the fueled parser. -/
theorem parseExpression_spec (ts : List token) (parts : List String) :
    parseFuel (ts.length + 1) ts parts = some (parseExpression ts parts) := by
  have h := parseFuel_isSome (ts.length + 1) ts parts (Nat.lt_succ_self _)
  match hm : parseFuel (ts.length + 1) ts parts with
  | some r => simp [parseExpression, hm]
  | none => rw [hm] at h; simp at h

theorem mk_data (s : String) : String.mk s.data = s := rfl

theorem string_eq_iff_data {s t : String} : s = t ↔ s.data = t.data := by
  constructor
  · intro h; rw [h]
  · intro h
    cases s
    cases t
    exact congrArg String.mk h

theorem ne_empty_of_data_ne {s : String} (h : s.data ≠ []) : s ≠ "" := by
  intro he
  rw [he] at h
  exact h rfl

/-- A plus-join of a list whose head exists and where the joined list has a
nonempty member is nonempty. -/
theorem goJoin_ne_empty :
    ∀ (l : List String), (∃ p ∈ l, p ≠ "") → goJoin l "+" ≠ "" := by
  intro l
  match l with
  | [] => rintro ⟨p, hp, -⟩; cases hp
  | [x] =>
    rintro ⟨p, hp, hne⟩
    simp only [List.mem_singleton] at hp
    subst hp
    simpa [goJoin] using hne
  | x :: y :: t =>
    intro _
    show x ++ "+" ++ goJoin (y :: t) "+" ≠ ""
    apply ne_empty_of_data_ne
    simp [String.data_append]

theorem isPrefixOfL_self_append (xs ys : List Char) :
    isPrefixOfL xs (xs ++ ys) = true := by
  induction xs with
  | nil => rfl
  | cons c cs ih => simp [isPrefixOfL, ih]

/-- A decorated identifier starts with the decoration. -/
theorem hasPrefixGo_append (pre v : String) :
    hasPrefixGo (pre ++ v) pre = true := by
  unfold hasPrefixGo
  rw [String.data_append]
  exact isPrefixOfL_self_append pre.data v.data

/-- A closed group ends with a closing parenthesis. -/
theorem hasSuffixGo_paren (x : String) :
    hasSuffixGo (x ++ ")") ")" = true := by
  unfold hasSuffixGo
  rw [String.data_append]
  show isPrefixOfL [')'] ((x.data ++ [')']).reverse) = true
  rw [List.reverse_append]
  simp [isPrefixOfL]

theorem char_ofNat_toNat {k : Nat} (h : k < 55296) : (Char.ofNat k).toNat = k := by
  have hv : k.isValidChar := Or.inl h
  have he : Char.ofNat k = Char.ofNatAux k hv := by simp [Char.ofNat, hv]
  rw [he]
  simp [Char.ofNatAux, Char.toNat, UInt32.toNat]

/-- `Char.toUpper` either fixes a character or returns an ASCII uppercase
letter. -/
theorem toUpper_eq_or (c : Char) :
    Char.toUpper c = c ∨
      (65 ≤ (Char.toUpper c).toNat ∧ (Char.toUpper c).toNat ≤ 90) := by
  unfold Char.toUpper
  by_cases h : c.toNat ≥ 97 ∧ c.toNat ≤ 122
  · right
    rw [if_pos h]
    rw [char_ofNat_toNat (by omega)]
    omega
  · left
    rw [if_neg h]

/-- Uppercasing only produces a meta-character from that same character. -/
theorem toUpper_meta_inv {c m : Char} (hm : m ∈ metaChars)
    (h : Char.toUpper c = m) : c = m := by
  rcases toUpper_eq_or c with h1 | h1
  · exact h1.symm.trans h
  · exfalso
    rw [h] at h1
    simp only [metaChars, List.mem_cons, List.not_mem_nil, or_false] at hm
    rcases hm with rfl | rfl | rfl | rfl | rfl <;> revert h1 <;> decide

/-- The five sequential replacements act as one single-character pass,
since no padding introduces another meta-character. -/
theorem padMeta_data (s : String) :
    (padMeta s).data = s.data.flatMap padChar := by
  show ((((s.data.flatMap fun c => if c = '(' then [' ', '(', ' '] else [c]).flatMap
      fun c => if c = ')' then [' ', ')', ' '] else [c]).flatMap
      fun c => if c = '+' then [' ', '+', ' '] else [c]).flatMap
      fun c => if c = '-' then [' ', '-', ' '] else [c]).flatMap
      (fun c => if c = '|' then [' ', '|', ' '] else [c]) = s.data.flatMap padChar
  generalize s.data = l
  induction l with
  | nil => rfl
  | cons c cs ih =>
    simp only [List.flatMap_cons, List.flatMap_append, ih]
    congr 1
    by_cases h1 : c = '('
    · subst h1; rfl
    · by_cases h2 : c = ')'
      · subst h2; rfl
      · by_cases h3 : c = '+'
        · subst h3; rfl
        · by_cases h4 : c = '-'
          · subst h4; rfl
          · by_cases h5 : c = '|'
            · subst h5; rfl
            · simp [padChar, metaChars, h1, h2, h3, h4, h5]

theorem meta_not_space : ∀ c ∈ metaChars, goIsSpace c = false := by decide

/-- A field under accumulation is never lost. -/
theorem fieldsAux_ne_nil :
    ∀ (cs acc : List Char), acc ≠ [] → fieldsAux cs acc ≠ [] := by
  intro cs
  induction cs with
  | nil =>
    intro acc hacc
    match acc with
    | [] => exact absurd rfl hacc
    | a :: as => simp [fieldsAux]
  | cons c cs ih =>
    intro acc hacc
    by_cases hs : goIsSpace c
    · match acc with
      | [] => exact absurd rfl hacc
      | a :: as => simp [fieldsAux, hs]
    · simp only [fieldsAux, if_neg hs]
      exact ih (c :: acc) (by simp)

/-- Every emitted field is nonempty. -/
theorem fieldsAux_mem_ne_empty :
    ∀ (cs acc : List Char) (f : String), f ∈ fieldsAux cs acc → f ≠ "" := by
  intro cs
  induction cs with
  | nil =>
    intro acc f hf
    match acc with
    | [] => simp [fieldsAux] at hf
    | a :: as =>
      simp only [fieldsAux, List.mem_singleton] at hf
      subst hf
      exact ne_empty_of_data_ne (by simp)
  | cons c cs ih =>
    intro acc f hf
    by_cases hs : goIsSpace c
    · match acc with
      | [] =>
        simp only [fieldsAux, if_pos hs] at hf
        exact ih [] f hf
      | a :: as =>
        simp only [fieldsAux, if_pos hs, List.mem_cons] at hf
        rcases hf with rfl | hf
        · exact ne_empty_of_data_ne (by simp)
        · exact ih [] f hf
    · simp only [fieldsAux, if_neg hs] at hf
      exact ih (c :: acc) f hf

/-- Splitting yields no field exactly when every character is whitespace. -/
theorem fieldsAux_nil_iff :
    ∀ cs : List Char, fieldsAux cs [] = [] ↔ ∀ c ∈ cs, goIsSpace c = true := by
  intro cs
  induction cs with
  | nil => simp [fieldsAux]
  | cons c cs ih =>
    by_cases hs : goIsSpace c
    · simp only [fieldsAux, if_pos hs]
      simp [ih, hs]
    · simp only [fieldsAux, if_neg hs]
      constructor
      · intro h
        exact absurd h (fieldsAux_ne_nil cs [c] (by simp))
      · intro h
        exact absurd (h c (by simp)) (by simpa using hs)

/-- Step equation: a whitespace character with an empty accumulator. -/
theorem fieldsAux_space_nil {c : Char} {cs : List Char} (h : goIsSpace c = true) :
    fieldsAux (c :: cs) [] = fieldsAux cs [] := by
  simp [fieldsAux, h]

/-- Step equation: a whitespace character emits the accumulated field. -/
theorem fieldsAux_space_cons {c a : Char} {cs as : List Char}
    (h : goIsSpace c = true) :
    fieldsAux (c :: cs) (a :: as) =
      String.mk (a :: as).reverse :: fieldsAux cs [] := by
  simp [fieldsAux, h]

/-- Step equation: a non-whitespace character extends the accumulator. -/
theorem fieldsAux_nonspace {c : Char} {cs acc : List Char}
    (h : goIsSpace c = false) :
    fieldsAux (c :: cs) acc = fieldsAux cs (c :: acc) := by
  simp [fieldsAux, h]

/-- Characters of a field come from the split string or the accumulator. -/
theorem fieldsAux_chars :
    ∀ (cs acc : List Char) (f : String) (c : Char),
      f ∈ fieldsAux cs acc → c ∈ f.data → c ∈ cs ∨ c ∈ acc := by
  intro cs
  induction cs with
  | nil =>
    intro acc f c hf hc
    match acc with
    | [] => simp [fieldsAux] at hf
    | a :: as =>
      simp only [fieldsAux, List.mem_singleton] at hf
      subst hf
      right
      exact List.mem_reverse.mp hc
  | cons d cs ih =>
    intro acc f c hf hc
    by_cases hs : goIsSpace d
    · match acc with
      | [] =>
        rw [fieldsAux_space_nil hs] at hf
        rcases ih [] f c hf hc with h | h
        · exact Or.inl (by simp [h])
        · simp at h
      | a :: as =>
        rw [fieldsAux_space_cons hs] at hf
        rcases List.mem_cons.mp hf with rfl | hf2
        · right
          exact List.mem_reverse.mp hc
        · rcases ih [] f c hf2 hc with h | h
          · exact Or.inl (by simp [h])
          · simp at h
    · rw [fieldsAux_nonspace (by simpa using hs)] at hf
      rcases ih (d :: acc) f c hf hc with h | h
      · exact Or.inl (by simp [h])
      · rcases List.mem_cons.mp h with rfl | h2
        · exact Or.inl (by simp)
        · exact Or.inr h2

/-- Membership transfers into the padded character list. -/
theorem mem_flatMap_padChar_of_mem {c : Char} {l : List Char} (h : c ∈ l) :
    c ∈ l.flatMap padChar := by
  refine List.mem_flatMap.mpr ⟨c, h, ?_⟩
  unfold padChar
  split <;> simp

/-- Characters of the padded list are original characters or spaces. -/
theorem mem_of_mem_flatMap_padChar {c : Char} {l : List Char}
    (h : c ∈ l.flatMap padChar) : c ∈ l ∨ c = ' ' := by
  rcases List.mem_flatMap.mp h with ⟨a, ha, hc⟩
  unfold padChar at hc
  by_cases hm : a ∈ metaChars
  · rw [if_pos hm] at hc
    simp only [List.mem_cons, List.not_mem_nil, or_false] at hc
    rcases hc with rfl | rfl | rfl
    · exact Or.inr rfl
    · exact Or.inl ha
    · exact Or.inr rfl
  · rw [if_neg hm] at hc
    simp only [List.mem_singleton] at hc
    subst hc
    exact Or.inl ha

/-- Padding does nothing to a string without meta-characters. -/
theorem padMeta_id {s : String} (h : ∀ c ∈ s.data, c ∉ metaChars) :
    padMeta s = s := by
  rw [string_eq_iff_data, padMeta_data]
  have : ∀ l : List Char, (∀ c ∈ l, c ∉ metaChars) → l.flatMap padChar = l := by
    intro l
    induction l with
    | nil => intro _; rfl
    | cons c cs ih =>
      intro hl
      rw [List.flatMap_cons, ih fun c hc => hl c (by simp [hc])]
      have hc : c ∉ metaChars := hl c (by simp)
      simp [padChar, hc]
  exact this s.data h

/-- Every field of a padded string is a lone meta-character or free of
meta-characters: the meta-characters always tokenize standalone. -/
theorem fields_pad :
    ∀ (cs acc : List Char), (∀ c ∈ acc, c ∉ metaChars) →
      ∀ f ∈ fieldsAux (cs.flatMap padChar) acc,
        (∃ c ∈ metaChars, f = String.mk [c]) ∨ ∀ c ∈ f.data, c ∉ metaChars := by
  intro cs
  induction cs with
  | nil =>
    intro acc hacc f hf
    right
    intro c hc
    rcases fieldsAux_chars [] acc f c (by simpa using hf) hc with h | h
    · simp at h
    · exact hacc c h
  | cons d cs ih =>
    intro acc hacc f hf
    rw [List.flatMap_cons] at hf
    by_cases hm : d ∈ metaChars
    · rw [show padChar d = [' ', d, ' '] from if_pos hm] at hf
      have hds : goIsSpace d = false := meta_not_space d hm
      simp only [List.cons_append, List.nil_append] at hf
      match acc with
      | [] =>
        rw [fieldsAux_space_nil (by decide), fieldsAux_nonspace hds,
          fieldsAux_space_cons (by decide)] at hf
        rcases List.mem_cons.mp hf with rfl | hf2
        · exact Or.inl ⟨d, hm, by simp⟩
        · exact ih [] (by simp) f hf2
      | a :: as =>
        rw [fieldsAux_space_cons (by decide), fieldsAux_nonspace hds,
          fieldsAux_space_cons (by decide)] at hf
        rcases List.mem_cons.mp hf with rfl | hf2
        · right
          intro c hc
          exact hacc c (List.mem_reverse.mp hc)
        · rcases List.mem_cons.mp hf2 with rfl | hf3
          · exact Or.inl ⟨d, hm, by simp⟩
          · exact ih [] (by simp) f hf3
    · rw [show padChar d = [d] from if_neg hm] at hf
      simp only [List.singleton_append] at hf
      by_cases hds : goIsSpace d
      · match acc with
        | [] =>
          rw [fieldsAux_space_nil hds] at hf
          exact ih [] (by simp) f hf
        | a :: as =>
          rw [fieldsAux_space_cons hds] at hf
          rcases List.mem_cons.mp hf with rfl | hf2
          · right
            intro c hc
            exact hacc c (List.mem_reverse.mp hc)
          · exact ih [] (by simp) f hf2
      · rw [fieldsAux_nonspace (by simpa using hds)] at hf
        refine ih (d :: acc) ?_ f hf
        intro c hc
        rcases List.mem_cons.mp hc with rfl | hc2
        · exact hm
        · exact hacc c hc2

/-- Terminal step: a nonempty accumulator is emitted at the end. -/
theorem fieldsAux_nil_acc {acc : List Char} (h : acc ≠ []) :
    fieldsAux [] acc = [String.mk acc.reverse] := by
  match acc with
  | [] => exact absurd rfl h
  | a :: as => simp [fieldsAux]

/-- Emission step for a whitespace character with any nonempty accumulator. -/
theorem fieldsAux_space_acc {c : Char} {cs acc : List Char}
    (hc : goIsSpace c = true) (h : acc ≠ []) :
    fieldsAux (c :: cs) acc = String.mk acc.reverse :: fieldsAux cs [] := by
  match acc with
  | [] => exact absurd rfl h
  | a :: as => exact fieldsAux_space_cons hc

/-- A run of non-whitespace characters lands in the accumulator. -/
theorem fieldsAux_run :
    ∀ (ds cs acc : List Char), (∀ c ∈ ds, goIsSpace c = false) →
      fieldsAux (ds ++ cs) acc = fieldsAux cs (ds.reverse ++ acc) := by
  intro ds
  induction ds with
  | nil => intro cs acc _; simp
  | cons d ds ih =>
    intro cs acc h
    have hd : goIsSpace d = false := h d (by simp)
    rw [List.cons_append, fieldsAux_nonspace hd,
      ih cs (d :: acc) fun c hc => h c (by simp [hc])]
    simp [List.append_assoc]

/-- Splitting a space-join of nonempty space-free words recovers the words. -/
theorem fields_join :
    ∀ ws : List String, ws ≠ [] →
      (∀ w ∈ ws, w ≠ "" ∧ ∀ c ∈ w.data, goIsSpace c = false) →
      goFields (goJoin ws " ") = ws := by
  intro ws
  induction ws with
  | nil => intro h; exact absurd rfl h
  | cons w ws ih =>
    intro _ hws
    obtain ⟨hw, hwc⟩ := hws w (by simp)
    have hd : w.data ≠ [] := fun he => hw (string_eq_iff_data.mpr (by simp [he]))
    have hrev : w.data.reverse ≠ [] := by simpa using hd
    match ws with
    | [] =>
      show goFields w = [w]
      unfold goFields
      rw [show w.data = w.data ++ [] by simp, fieldsAux_run w.data [] [] hwc,
        List.append_nil, fieldsAux_nil_acc hrev]
      simp [mk_data]
    | w2 :: ws2 =>
      show goFields (w ++ " " ++ goJoin (w2 :: ws2) " ") = w :: w2 :: ws2
      unfold goFields
      rw [String.data_append, String.data_append,
        show (" " : String).data = [' '] from rfl, List.append_assoc,
        fieldsAux_run w.data _ [] hwc, List.append_nil,
        List.singleton_append,
        fieldsAux_space_acc (by decide) hrev, List.reverse_reverse]
      have hrest := ih (by simp) fun x hx => hws x (by simp [hx])
      unfold goFields at hrest
      rw [hrest]

/-- A character of a space-join comes from a word or is the space. -/
theorem mem_goJoin_space :
    ∀ (ws : List String) (c : Char), c ∈ (goJoin ws " ").data →
      (∃ w ∈ ws, c ∈ w.data) ∨ c = ' ' := by
  intro ws
  induction ws with
  | nil => intro c hc; simp [goJoin] at hc
  | cons w ws ih =>
    intro c hc
    match ws with
    | [] =>
      left
      exact ⟨w, by simp, hc⟩
    | w2 :: ws2 =>
      have : (goJoin (w :: w2 :: ws2) " ").data =
          w.data ++ [' '] ++ (goJoin (w2 :: ws2) " ").data := by
        show ((w ++ " ") ++ goJoin (w2 :: ws2) " ").data = _
        rw [String.data_append, String.data_append]
      rw [this] at hc
      rcases List.mem_append.mp hc with h1 | h2
      · rcases List.mem_append.mp h1 with h3 | h4
        · exact Or.inl ⟨w, by simp, h3⟩
        · simp only [List.mem_singleton] at h4
          exact Or.inr h4
      · rcases ih c h2 with ⟨x, hx, hcx⟩ | h
        · exact Or.inl ⟨x, by simp [hx], hcx⟩
        · exact Or.inr h

/-- A field that is not a keyword or symbol is classified as an
identifier carrying its exact text. -/
theorem classifyField_ident {f : String}
    (h : goUpper f ∉ (["AND", "OR", "NOT", "+", "|", "-", "(", ")"] : List String)) :
    classifyField f = ⟨tokenType.tokenIdent, f⟩ := by
  simp only [List.mem_cons, List.not_mem_nil, or_false, not_or] at h
  obtain ⟨h1, h2, h3, h4, h5, h6, h7, h8⟩ := h
  simp [classifyField, h1, h2, h3, h4, h5, h6, h7, h8]

/-- The token kind only depends on the uppercased field. -/
theorem classifyField_type_upper {f g : String} (h : goUpper f = goUpper g) :
    (classifyField f).type = (classifyField g).type := by
  simp only [classifyField]
  rw [h]
  split_ifs <;> rfl

/-- A field classified as an identifier keeps its text as the value. -/
theorem classifyField_ident_value {f : String}
    (h : (classifyField f).type = tokenType.tokenIdent) :
    classifyField f = ⟨tokenType.tokenIdent, f⟩ := by
  simp only [classifyField] at h ⊢
  split_ifs at h ⊢ <;> simp_all

/-- The padded string splits into no field exactly when the input is
empty or whitespace-only. -/
theorem fields_padMeta_nil_iff (s : String) :
    goFields (padMeta s) = [] ↔ ∀ c ∈ s.data, goIsSpace c = true := by
  unfold goFields
  rw [padMeta_data, fieldsAux_nil_iff]
  constructor
  · intro h c hc
    exact h c (mem_flatMap_padChar_of_mem hc)
  · intro h c hc
    rcases mem_of_mem_flatMap_padChar hc with h2 | rfl
    · exact h c h2
    · decide

/-- Lexing a space-join of bare identifiers yields exactly the
identifier tokens followed by EOF. -/
theorem lex_bare (ws : List String) (hne : ws ≠ [])
    (h : ∀ w ∈ ws, w ≠ "" ∧ (∀ c ∈ w.data, goIsSpace c = false ∧ c ∉ metaChars) ∧
      goUpper w ∉ (["AND", "OR", "NOT", "+", "|", "-", "(", ")"] : List String)) :
    lex (goJoin ws " ") = ws.map identTok ++ [eofTok] := by
  unfold lex
  have hpad : padMeta (goJoin ws " ") = goJoin ws " " := by
    apply padMeta_id
    intro c hc
    rcases mem_goJoin_space ws c hc with ⟨w, hw, hcw⟩ | rfl
    · exact ((h w hw).2.1 c hcw).2
    · decide
  rw [hpad, fields_join ws hne fun w hw =>
    ⟨(h w hw).1, fun c hc => ((h w hw).2.1 c hc).1⟩]
  have hmap : ws.map classifyField = ws.map identTok := by
    apply List.map_congr_left
    intro w hw
    exact classifyField_ident (h w hw).2.2
  rw [hmap]
  rfl

/-- Appending the possible implicit AND and one nonempty part preserves
that every part is nonempty. -/
theorem parts_aug_all_ne {parts : List String} {P : Prop} [Decidable P]
    (h : ∀ p ∈ parts, p ≠ "") {x : String} (hx : x ≠ "") :
    ∀ p ∈ ((if P then parts ++ ["AND"] else parts) ++ [x]), p ≠ "" := by
  intro p hp
  rcases List.mem_append.mp hp with h1 | h2
  · split at h1
    · rcases List.mem_append.mp h1 with h3 | h4
      · exact h p h3
      · simp only [List.mem_singleton] at h4
        subst h4
        decide
    · exact h p h1
  · simp only [List.mem_singleton] at h2
    subst h2
    exact hx

/-- A stream of identifier and operator tokens parses without error: the
loop consumes it entirely, appending one part per token. -/
theorem parse_simple :
    ∀ (ts1 : List token) (fuel : Nat) (parts : List String),
      ts1.length + 1 < fuel →
      (∀ t ∈ ts1, simpleTok t) →
      (parts = [] → ts1 ≠ []) →
      (∀ p ∈ parts, p ≠ "") →
      ∃ s, parseFuel fuel (ts1 ++ [eofTok]) parts =
          some (Except.ok (s, [eofTok])) ∧ s ≠ "" := by
  intro ts1
  induction ts1 with
  | nil =>
    intro fuel parts hf hts hpe hpne
    match fuel, hf with
    | fuel + 1, _ =>
      have hne : parts ≠ [] := fun h => (hpe h) rfl
      match parts with
      | [] => exact absurd rfl hne
      | p :: ps =>
        have hjoin : goJoin (p :: ps) "+" ≠ "" :=
          goJoin_ne_empty _ ⟨p, by simp, hpne p (by simp)⟩
        refine ⟨goJoin (p :: ps) "+", ?_, hjoin⟩
        simp only [List.nil_append, parseFuel, eofTok]
        rw [if_pos (by simp)]
        simp [finishLevel, hjoin]
  | cons t ts1 ih =>
    intro fuel parts hf hts hpe hpne
    match fuel, hf with
    | fuel + 1, hf =>
      have hb : ts1.length + 1 < fuel := by
        simpa using Nat.lt_of_succ_lt_succ (by simpa using hf)
      obtain ⟨hty, hval⟩ := hts t (by simp)
      have hts' : ∀ x ∈ ts1, simpleTok x := fun x hx => hts x (by simp [hx])
      rcases hty with hid | hand | hor | hnot
      · have hx : ("cat:" ++ t.value) ≠ "" :=
          ne_empty_of_data_ne (by simp [String.data_append])
        obtain ⟨s, hs, hsne⟩ := ih fuel
          ((if needImplicitAnd parts tokenType.tokenIdent then
              parts ++ ["AND"] else parts) ++ ["cat:" ++ t.value])
          hb hts' (fun hemp => absurd hemp (by simp)) (parts_aug_all_ne hpne hx)
        refine ⟨s, ?_, hsne⟩
        simp only [List.cons_append, parseFuel, hid]
        rw [if_neg (by simp)]
        exact hs
      · obtain ⟨s, hs, hsne⟩ := ih fuel
          ((if needImplicitAnd parts tokenType.tokenAnd then
              parts ++ ["AND"] else parts) ++ [t.value])
          hb hts' (fun hemp => absurd hemp (by simp)) (parts_aug_all_ne hpne hval)
        refine ⟨s, ?_, hsne⟩
        simp only [List.cons_append, parseFuel, hand]
        rw [if_neg (by simp)]
        exact hs
      · obtain ⟨s, hs, hsne⟩ := ih fuel
          ((if needImplicitAnd parts tokenType.tokenOr then
              parts ++ ["AND"] else parts) ++ [t.value])
          hb hts' (fun hemp => absurd hemp (by simp)) (parts_aug_all_ne hpne hval)
        refine ⟨s, ?_, hsne⟩
        simp only [List.cons_append, parseFuel, hor]
        rw [if_neg (by simp)]
        exact hs
      · obtain ⟨s, hs, hsne⟩ := ih fuel
          ((if needImplicitAnd parts tokenType.tokenNot then
              parts ++ ["AND"] else parts) ++ [t.value])
          hb hts' (fun hemp => absurd hemp (by simp)) (parts_aug_all_ne hpne hval)
        refine ⟨s, ?_, hsne⟩
        simp only [List.cons_append, parseFuel, hnot]
        rw [if_neg (by simp)]
        exact hs

/-- Empty or whitespace-only input fails with the empty-expression error. -/
theorem parse_all_space_error (s : String)
    (h : ∀ c ∈ s.data, goIsSpace c = true) :
    ParseReconstructCategoryExpression s = Except.error "empty expression" := by
  have hnil : goFields (padMeta s) = [] := (fields_padMeta_nil_iff s).mpr h
  have hlex : lex s = [⟨tokenType.tokenEOF, ""⟩] := by
    unfold lex
    rw [hnil]
    rfl
  unfold ParseReconstructCategoryExpression
  rw [hlex]
  rfl

/-- A nonempty field all of whose characters are not parentheses is
classified as an identifier or operator token with nonempty value. -/
theorem classifyField_simple {f : String} (hf : f ≠ "")
    (hpar : ∀ c ∈ f.data, c ≠ '(' ∧ c ≠ ')') : simpleTok (classifyField f) := by
  have hinv : ∀ m : Char, m ∈ metaChars → goUpper f = String.mk [m] →
      m ∈ f.data := by
    intro m hm hu
    have hd : f.data.map Char.toUpper = [m] := string_eq_iff_data.mp hu
    cases hfd : f.data with
    | nil => rw [hfd] at hd; simp at hd
    | cons c cs =>
      rw [hfd] at hd
      simp only [List.map_cons, List.cons.injEq] at hd
      have hc : c = m := toUpper_meta_inv hm hd.1
      subst hc
      simp
  simp only [classifyField]
  split_ifs with h1 h2 h3 h4 h5
  · exact ⟨Or.inr (Or.inl rfl), by decide⟩
  · exact ⟨Or.inr (Or.inr (Or.inl rfl)), by decide⟩
  · exact ⟨Or.inr (Or.inr (Or.inr rfl)), by decide⟩
  · exact absurd ((hpar '(' (hinv '(' (by decide) h4)).1) (fun hh => hh rfl)
  · exact absurd ((hpar ')' (hinv ')' (by decide) h5)).2) (fun hh => hh rfl)
  · exact ⟨Or.inl rfl, hf⟩

/-- Nonempty input without parenthesis characters parses successfully. -/
theorem parse_no_paren_ok (s : String)
    (hpar : ∀ c ∈ s.data, c ≠ '(' ∧ c ≠ ')')
    (hns : ¬ ∀ c ∈ s.data, goIsSpace c = true) :
    ∃ out, ParseReconstructCategoryExpression s = Except.ok out := by
  have hfne : goFields (padMeta s) ≠ [] :=
    fun h => hns ((fields_padMeta_nil_iff s).mp h)
  have hsimple : ∀ tk ∈ (goFields (padMeta s)).map classifyField, simpleTok tk := by
    intro tk htk
    rcases List.mem_map.mp htk with ⟨f, hf, rfl⟩
    have hfne' : f ≠ "" := fieldsAux_mem_ne_empty _ _ f hf
    have hfchars : ∀ c ∈ f.data, c ≠ '(' ∧ c ≠ ')' := by
      intro c hc
      rcases fieldsAux_chars _ [] f c hf hc with h1 | h1
      · rw [padMeta_data] at h1
        rcases mem_of_mem_flatMap_padChar h1 with h2 | rfl
        · exact hpar c h2
        · exact ⟨by decide, by decide⟩
      · simp at h1
    exact classifyField_simple hfne' hfchars
  set ts1 := (goFields (padMeta s)).map classifyField with hts1
  have hts1ne : ts1 ≠ [] := by
    rw [hts1]
    simpa using hfne
  obtain ⟨str, hstr, hsne⟩ :=
    parse_simple ts1 (ts1.length + 2) [] (by omega) hsimple (fun _ => hts1ne)
      (by simp)
  have hlex : lex s = ts1 ++ [eofTok] := rfl
  have hlen : (lex s).length + 1 = ts1.length + 2 := by
    rw [hlex]
    simp
  refine ⟨"(" ++ str ++ ")", ?_⟩
  unfold ParseReconstructCategoryExpression parseExpression
  rw [hlex, show (ts1 ++ [eofTok]).length + 1 = ts1.length + 2 by simp, hstr]
  rfl

/-- Identifier-only token streams: each identifier appends its decorated
term, preceded by an implicit AND because the previous part is a term. -/
theorem parse_idents :
    ∀ (ws : List String) (fuel : Nat) (acc : List String) (p : String),
      ws.length + 1 < fuel →
      acc.getLast? = some p →
      hasPrefixGo p "cat:" = true →
      (∃ q ∈ acc, q ≠ "") →
      parseFuel fuel (ws.map identTok ++ [eofTok]) acc =
        some (Except.ok
          (goJoin (acc ++ ws.flatMap fun w => ["AND", "cat:" ++ w]) "+",
            [eofTok])) := by
  intro ws
  induction ws with
  | nil =>
    intro fuel acc p hf hlast hpre hne
    match fuel, hf with
    | fuel + 1, _ =>
      have hjoin : goJoin acc "+" ≠ "" := goJoin_ne_empty acc hne
      simp only [List.map_nil, List.nil_append, List.flatMap_nil, List.append_nil,
        parseFuel, eofTok]
      rw [if_pos (by simp)]
      simp [finishLevel, hjoin]
  | cons w ws ih =>
    intro fuel acc p hf hlast hpre hne
    match fuel, hf with
    | fuel + 1, hf =>
      have hb : ws.length + 1 < fuel := by
        simpa using Nat.lt_of_succ_lt_succ (by simpa using hf)
      have hneed : needImplicitAnd acc tokenType.tokenIdent = true := by
        unfold needImplicitAnd
        rw [hlast]
        simp [hpre]
      have hcat : ("cat:" ++ w) ≠ "" :=
        ne_empty_of_data_ne (by simp [String.data_append])
      simp only [List.map_cons, List.cons_append, parseFuel, identTok]
      rw [if_neg (by simp), if_pos hneed,
        ih fuel ((acc ++ ["AND"]) ++ ["cat:" ++ w]) ("cat:" ++ w) hb
          (List.getLast?_concat _) (hasPrefixGo_append "cat:" w)
          ⟨"cat:" ++ w, by simp, hcat⟩]
      simp [List.flatMap_cons, List.append_assoc]

/-- The accumulated identifier parts form the AND-interspersed list of
decorated identifiers. -/
theorem cat_flatMap_eq_intersperse :
    ∀ (w : String) (ws : List String),
      ("cat:" ++ w) :: ws.flatMap (fun x => ["AND", "cat:" ++ x]) =
        List.intersperse "AND" ((w :: ws).map fun x => "cat:" ++ x) := by
  intro w ws
  induction ws generalizing w with
  | nil => simp [List.intersperse]
  | cons w2 ws ih =>
    show ("cat:" ++ w) :: (["AND", "cat:" ++ w2] ++
        ws.flatMap fun x => ["AND", "cat:" ++ x]) = _
    have : List.intersperse "AND" ((w :: w2 :: ws).map fun x => "cat:" ++ x) =
        ("cat:" ++ w) :: "AND" ::
          List.intersperse "AND" ((w2 :: ws).map fun x => "cat:" ++ x) := rfl
    rw [this, ← ih w2]
    rfl

/-- Interspersing a separator absent from the list adds one occurrence
between every two elements. -/
theorem count_intersperse :
    ∀ l : List String, (∀ x ∈ l, x ≠ "AND") →
      (List.intersperse "AND" l).count "AND" = l.length - 1 := by
  intro l
  induction l with
  | nil => simp [List.intersperse]
  | cons x xs ih =>
    intro h
    have hx : x ≠ "AND" := h x (by simp)
    cases xs with
    | nil => simp [List.intersperse, List.count_cons, hx]
    | cons y ys =>
      have htail := ih fun z hz => h z (by simp [hz])
      show (x :: "AND" :: List.intersperse "AND" (y :: ys)).count "AND" =
        (x :: y :: ys).length - 1
      rw [List.count_cons, List.count_cons, htail,
        if_pos (by simp), if_neg (by simpa using hx)]
      simp only [List.length_cons]
      omega

/-- Length of an interspersed nonempty list. -/
theorem length_intersperse :
    ∀ l : List String, l ≠ [] →
      (List.intersperse "AND" l).length = 2 * l.length - 1 := by
  intro l
  induction l with
  | nil => intro h; exact absurd rfl h
  | cons x xs ih =>
    intro _
    cases xs with
    | nil => simp [List.intersperse]
    | cons y ys =>
      have htail := ih (by simp)
      show (x :: "AND" :: List.intersperse "AND" (y :: ys)).length =
        2 * (x :: y :: ys).length - 1
      simp only [List.length_cons]
      rw [htail]
      simp only [List.length_cons]
      omega

/-- Claim C1 is false as stated: the input "()" is non-empty and not
whitespace-only, yet the strict parser fails with the EmptyExpression
error, because the nested level between the parentheses joins to the
empty string. -/
theorem C1_counterexample :
    "()".data.all goIsSpace = false ∧
    ParseReconstructCategoryExpression "()" = Except.error "empty expression" :=
  ⟨rfl, rfl⟩

/-- Claim C1 (amended): empty or whitespace-only input always fails with
the EmptyExpression error, and every non-empty input containing no
parenthesis character succeeds; inputs with parentheses can fail even
when non-empty, because the error is raised at every recursion level
whose part list joins to the empty string. -/
theorem C1_empty_expression (s : String) :
    ((∀ c ∈ s.data, goIsSpace c = true) →
      ParseReconstructCategoryExpression s = Except.error "empty expression") ∧
    ((∀ c ∈ s.data, c ≠ '(' ∧ c ≠ ')') →
      ¬(∀ c ∈ s.data, goIsSpace c = true) →
      ∃ out, ParseReconstructCategoryExpression s = Except.ok out) :=
  ⟨parse_all_space_error s, parse_no_paren_ok s⟩

/-- Witness for C1: the amended claim evaluated at a concrete input. -/
theorem C1_witness :
    ∃ out, ParseReconstructCategoryExpression "a" = Except.ok out :=
  (C1_empty_expression "a").2 (by decide) (by decide)

/-- Claim C3: an input of N space-separated bare identifiers (no
keywords, parentheses or shorthand symbols) parses to exactly the N
decorated identifiers joined by exactly N-1 literal AND parts inside one
outer parenthesis pair. -/
theorem C3_bare_identifiers (ws : List String) (hne : ws ≠ [])
    (h : ∀ w ∈ ws, w ≠ "" ∧ (∀ c ∈ w.data, goIsSpace c = false ∧ c ∉ metaChars) ∧
      goUpper w ∉ (["AND", "OR", "NOT", "+", "|", "-", "(", ")"] : List String)) :
    ParseReconstructCategoryExpression (goJoin ws " ") =
      Except.ok ("(" ++
        goJoin (List.intersperse "AND" (ws.map fun w => "cat:" ++ w)) "+" ++ ")") ∧
    (List.intersperse "AND" (ws.map fun w => "cat:" ++ w)).count "AND" =
      ws.length - 1 ∧
    (List.intersperse "AND" (ws.map fun w => "cat:" ++ w)).length =
      2 * ws.length - 1 := by
  refine ⟨?_, ?_, ?_⟩
  · cases ws with
    | nil => exact absurd rfl hne
    | cons w ws' =>
      have hlex := lex_bare (w :: ws') hne h
      unfold ParseReconstructCategoryExpression parseExpression
      rw [hlex, show ((w :: ws').map identTok ++ [eofTok]).length + 1 =
        ws'.length + 3 by simp]
      have hstep : parseFuel (ws'.length + 3)
          ((w :: ws').map identTok ++ [eofTok]) [] =
          parseFuel (ws'.length + 2) (ws'.map identTok ++ [eofTok])
            ["cat:" ++ w] := by
        show parseFuel (ws'.length + 2 + 1)
          (identTok w :: (ws'.map identTok ++ [eofTok])) [] = _
        simp only [parseFuel, identTok]
        rw [if_neg (by simp), if_neg (by decide)]
        rfl
      rw [hstep, parse_idents ws' (ws'.length + 2) ["cat:" ++ w] ("cat:" ++ w)
        (by omega) (by simp) (hasPrefixGo_append "cat:" w)
        ⟨"cat:" ++ w, by simp, ne_empty_of_data_ne (by simp [String.data_append])⟩]
      rw [show (["cat:" ++ w] ++ ws'.flatMap fun x => ["AND", "cat:" ++ x]) =
        List.intersperse "AND" ((w :: ws').map fun x => "cat:" ++ x) from by
          rw [← cat_flatMap_eq_intersperse]
          rfl]
      rfl
  · rw [show ws.length = (ws.map fun w => "cat:" ++ w).length by simp]
    apply count_intersperse
    intro x hx
    rcases List.mem_map.mp hx with ⟨w, hw, rfl⟩
    intro he
    rw [string_eq_iff_data] at he
    simp [String.data_append] at he
  · rw [show ws.length = (ws.map fun w => "cat:" ++ w).length by simp]
    apply length_intersperse
    simpa using hne

/-- Witness for C3: two bare identifiers. -/
theorem C3_witness :
    ParseReconstructCategoryExpression (goJoin ["alpha", "beta"] " ") =
      Except.ok ("(" ++ goJoin (List.intersperse "AND"
        (["alpha", "beta"].map fun w => "cat:" ++ w)) "+" ++ ")") ∧
    (List.intersperse "AND"
      (["alpha", "beta"].map fun w => "cat:" ++ w)).count "AND" =
      (["alpha", "beta"] : List String).length - 1 ∧
    (List.intersperse "AND"
      (["alpha", "beta"].map fun w => "cat:" ++ w)).length =
      2 * (["alpha", "beta"] : List String).length - 1 :=
  C3_bare_identifiers ["alpha", "beta"] (by decide) (by decide)

/-- Claim C5: the three literal category-variant scenarios of the spec. -/
theorem C5_literal_examples :
    ParseReconstructCategoryExpression "a" = Except.ok "(cat:a)" ∧
    ParseReconstructCategoryExpression "a b" = Except.ok "(cat:a+AND+cat:b)" ∧
    ParseReconstructCategoryExpression "a and b not (c or d)" =
      Except.ok "(cat:a+AND+cat:b+NOT+(cat:c+OR+cat:d))" :=
  ⟨rfl, rfl, rfl⟩

/-- Claim C7: an unmatched opening parenthesis nests one extra level
without error, and an unmatched closing parenthesis is consumed without
error, the output being identical to the input without it. -/
theorem C7_unmatched_parens :
    ParseReconstructCategoryExpression "(a b" = Except.ok "((cat:a+AND+cat:b))" ∧
    ParseReconstructCategoryExpression "a b)" = Except.ok "(cat:a+AND+cat:b)" ∧
    ParseReconstructCategoryExpression "a b)" =
      ParseReconstructCategoryExpression "a b" :=
  ⟨rfl, rfl, rfl⟩

/-- An operator keyword part is never a term part. -/
theorem not_termPart_of_opPart {p : String} (hop : OpPart p) : ¬ TermPart p := by
  rcases hop with rfl | rfl | rfl <;>
  · rintro (⟨v, hv⟩ | ⟨e, he⟩)
    · rw [string_eq_iff_data] at hv
      simp [String.data_append] at hv
    · rw [string_eq_iff_data] at he
      simp [String.data_append] at he

/-- Claim C2: the implicit AND is inserted exactly when the most
recently appended part is a term (decorated identifier or closed group)
and the current token is term-starting; in particular operator-only
input returns the keywords verbatim, with no inserted AND, and no
operator is inserted between a term and an operator. -/
theorem C2_implicit_and :
    (∀ (parts : List String) (tt : tokenType),
      (∀ p ∈ parts, TermPart p ∨ OpPart p) →
      (needImplicitAnd parts tt = true ↔
        ((∃ p, parts.getLast? = some p ∧ TermPart p) ∧
          (tt = tokenType.tokenIdent ∨ tt = tokenType.tokenLParen)))) ∧
    ParseReconstructCategoryExpression "AND OR NOT" = Except.ok "(AND+OR+NOT)" ∧
    ParseReconstructCategoryExpression "a NOT b" =
      Except.ok "(cat:a+NOT+cat:b)" := by
  refine ⟨?_, rfl, rfl⟩
  intro parts tt hparts
  cases hlast : parts.getLast? with
  | none =>
    have hred : needImplicitAnd parts tt = false := by
      unfold needImplicitAnd
      rw [hlast]
    simp [hred]
  | some p =>
    have hred : needImplicitAnd parts tt =
        ((hasPrefixGo p "cat:" || hasSuffixGo p ")") &&
          (decide (tt = tokenType.tokenIdent) ||
            decide (tt = tokenType.tokenLParen))) := by
      unfold needImplicitAnd
      rw [hlast]
    have hp : p ∈ parts := List.mem_of_mem_getLast? hlast
    rcases hparts p hp with hterm | hop
    · have h1 : (hasPrefixGo p "cat:" || hasSuffixGo p ")") = true := by
        rcases hterm with ⟨v, rfl⟩ | ⟨e, rfl⟩
        · simp [hasPrefixGo_append]
        · simp [hasSuffixGo_paren]
      rw [hred, h1]
      constructor
      · intro h2
        exact ⟨⟨p, rfl, hterm⟩, by simpa using h2⟩
      · rintro ⟨-, h3⟩
        rcases h3 with rfl | rfl <;> simp
    · have h1 : (hasPrefixGo p "cat:" || hasSuffixGo p ")") = false := by
        rcases hop with rfl | rfl | rfl <;> decide
      rw [hred, h1]
      constructor
      · intro h2
        simp at h2
      · rintro ⟨⟨p', hp', hterm'⟩, -⟩
        rw [Option.some.injEq] at hp'
        exact absurd (hp' ▸ hterm') (not_termPart_of_opPart hop)

/-- Witness for C2: the implicit-AND test fires after a decorated
identifier when the next token is an identifier. -/
theorem C2_witness : needImplicitAnd ["cat:a"] tokenType.tokenIdent = true :=
  ((C2_implicit_and.1 ["cat:a"] tokenType.tokenIdent
      (fun p hp => by
        simp only [List.mem_singleton] at hp
        exact hp ▸ Or.inl (Or.inl ⟨"a", rfl⟩))).mpr
    ⟨⟨"cat:a", rfl, Or.inl ⟨"a", rfl⟩⟩, Or.inl rfl⟩)

/-- The token kinds that the top-level loop consumes one-for-one. -/
theorem parse_stops_at_rparen :
    ∀ (ts1 : List token) (fuel : Nat) (parts : List String) (ts2 : List token),
      ts1.length + 1 < fuel →
      (∀ t ∈ ts1, t.type = tokenType.tokenIdent ∨ t.type = tokenType.tokenAnd ∨
        t.type = tokenType.tokenOr ∨ t.type = tokenType.tokenNot) →
      ∃ s : String,
        (parseFuel fuel (ts1 ++ ⟨tokenType.tokenRParen, ")"⟩ :: ts2) parts =
          if s = "" then some (Except.error "empty expression")
          else some (Except.ok (s, ts2))) ∧
        (parseFuel fuel (ts1 ++ [⟨tokenType.tokenRParen, ")"⟩]) parts =
          if s = "" then some (Except.error "empty expression")
          else some (Except.ok (s, []))) := by
  intro ts1
  induction ts1 with
  | nil =>
    intro fuel parts ts2 hf hts
    match fuel, hf with
    | fuel + 1, _ =>
      refine ⟨goJoin parts "+", ?_, ?_⟩ <;>
      · simp only [List.nil_append, parseFuel]
        rw [if_pos (by simp)]
        simp only [finishLevel]
        split <;> simp
  | cons t ts1 ih =>
    intro fuel parts ts2 hf hts
    match fuel, hf with
    | fuel + 1, hf =>
      have hb : ts1.length + 1 < fuel := by
        simpa using Nat.lt_of_succ_lt_succ (by simpa using hf)
      have hts' : ∀ x ∈ ts1, x.type = tokenType.tokenIdent ∨
          x.type = tokenType.tokenAnd ∨ x.type = tokenType.tokenOr ∨
          x.type = tokenType.tokenNot := fun x hx => hts x (by simp [hx])
      rcases hts t (by simp) with hid | hand | hor | hnot
      · obtain ⟨s, h1, h2⟩ := ih fuel
          ((if needImplicitAnd parts tokenType.tokenIdent then
            parts ++ ["AND"] else parts) ++ ["cat:" ++ t.value]) ts2 hb hts'
        refine ⟨s, ?_, ?_⟩ <;>
          simp only [List.cons_append, parseFuel, hid] <;>
          rw [if_neg (by simp)]
        · exact h1
        · exact h2
      · obtain ⟨s, h1, h2⟩ := ih fuel
          ((if needImplicitAnd parts tokenType.tokenAnd then
            parts ++ ["AND"] else parts) ++ [t.value]) ts2 hb hts'
        refine ⟨s, ?_, ?_⟩ <;>
          simp only [List.cons_append, parseFuel, hand] <;>
          rw [if_neg (by simp)]
        · exact h1
        · exact h2
      · obtain ⟨s, h1, h2⟩ := ih fuel
          ((if needImplicitAnd parts tokenType.tokenOr then
            parts ++ ["AND"] else parts) ++ [t.value]) ts2 hb hts'
        refine ⟨s, ?_, ?_⟩ <;>
          simp only [List.cons_append, parseFuel, hor] <;>
          rw [if_neg (by simp)]
        · exact h1
        · exact h2
      · obtain ⟨s, h1, h2⟩ := ih fuel
          ((if needImplicitAnd parts tokenType.tokenNot then
            parts ++ ["AND"] else parts) ++ [t.value]) ts2 hb hts'
        refine ⟨s, ?_, ?_⟩ <;>
          simp only [List.cons_append, parseFuel, hnot] <;>
          rw [if_neg (by simp)]
        · exact h1
        · exact h2

/-- Claim C10: at the top level a closing parenthesis stops the loop,
is consumed, and everything after it is discarded: the level's result
does not depend on the tokens after the stray parenthesis, the
remainder is exactly those tokens, and the entry point ignores them. -/
theorem C10_discard_after_rparen :
    (∀ (ts1 : List token) (fuel : Nat) (parts : List String) (ts2 : List token),
      ts1.length + 1 < fuel →
      (∀ t ∈ ts1, t.type = tokenType.tokenIdent ∨ t.type = tokenType.tokenAnd ∨
        t.type = tokenType.tokenOr ∨ t.type = tokenType.tokenNot) →
      ∃ s : String,
        (parseFuel fuel (ts1 ++ ⟨tokenType.tokenRParen, ")"⟩ :: ts2) parts =
          if s = "" then some (Except.error "empty expression")
          else some (Except.ok (s, ts2))) ∧
        (parseFuel fuel (ts1 ++ [⟨tokenType.tokenRParen, ")"⟩]) parts =
          if s = "" then some (Except.error "empty expression")
          else some (Except.ok (s, [])))) ∧
    ParseReconstructCategoryExpression "a ) b" = Except.ok "(cat:a)" ∧
    ParseReconstructCategoryExpression "a ) b" =
      ParseReconstructCategoryExpression "a )" :=
  ⟨parse_stops_at_rparen, rfl, rfl⟩

/-- Witness for C10: one identifier before the stray parenthesis, one
after; the joined result is the same with and without the tail. -/
theorem C10_witness :
    ∃ s : String,
      (parseFuel 3 ([identTok "a"] ++ ⟨tokenType.tokenRParen, ")"⟩ ::
          [identTok "b"]) [] =
        if s = "" then some (Except.error "empty expression")
        else some (Except.ok (s, [identTok "b"]))) ∧
      (parseFuel 3 ([identTok "a"] ++ [⟨tokenType.tokenRParen, ")"⟩]) [] =
        if s = "" then some (Except.error "empty expression")
        else some (Except.ok (s, []))) :=
  C10_discard_after_rparen.1 [identTok "a"] 3 [] [identTok "b"] (by decide)
    (by decide)

/-- Claim C9: parsing terminates on every finite token stream — the
remainder on success is always a suffix of the input (the cursor is
never decremented), fuel equal to the token count plus one is never
exhausted, and the total `parseExpression` is the unique value of the
fueled recursion. -/
theorem C9_termination :
    (∀ (fuel : Nat) (ts : List token) (parts : List String) (s : String)
        (rest : List token),
      parseFuel fuel ts parts = some (Except.ok (s, rest)) → rest <:+ ts) ∧
    (∀ (ts : List token) (parts : List String),
      (parseFuel (ts.length + 1) ts parts).isSome) ∧
    (∀ (ts : List token) (parts : List String),
      parseFuel (ts.length + 1) ts parts = some (parseExpression ts parts)) :=
  ⟨parseFuel_suffix,
    fun ts parts => parseFuel_isSome _ ts parts (Nat.lt_succ_self _),
    parseExpression_spec⟩

/-- Witness for C9: the remainder of parsing one identifier is the EOF
suffix of the token stream. -/
theorem C9_witness : [⟨tokenType.tokenEOF, ""⟩] <:+ lex "a" :=
  C9_termination.1 3 (lex "a") [] "cat:a" [⟨tokenType.tokenEOF, ""⟩] rfl

/-- Balance scan over a concatenation: run the second part from the
first part's final count. -/
theorem balAux_append :
    ∀ (xs ys : List Char) (n : Int),
      balAux (xs ++ ys) n = match balAux xs n with
        | none => none
        | some m => balAux ys m := by
  intro xs
  induction xs with
  | nil => intro ys n; rfl
  | cons c cs ih =>
    intro ys n
    by_cases hm : (if c = '(' then n + 1 else if c = ')' then n - 1 else n) < 0
    · simp [balAux, hm]
    · simp [balAux, hm, ih]

/-- Starting the scan higher keeps it valid and shifts the final count. -/
theorem balAux_shift :
    ∀ (xs : List Char) (n k d : Int), 0 ≤ d →
      balAux xs n = some k → balAux xs (n + d) = some (k + d) := by
  intro xs
  induction xs with
  | nil =>
    intro n k d _ h
    simp only [balAux, Option.some.injEq] at h ⊢
    omega
  | cons c cs ih =>
    intro n k d hd h
    simp only [balAux] at h ⊢
    set m : Int := if c = '(' then n + 1 else if c = ')' then n - 1 else n
      with hm
    have hmd : (if c = '(' then n + d + 1 else if c = ')' then n + d - 1
        else n + d) = m + d := by
      rw [hm]
      split_ifs <;> ring
    rw [hmd]
    by_cases hneg : m < 0
    · rw [if_pos hneg] at h
      exact absurd h (by simp)
    · rw [if_neg hneg] at h
      rw [if_neg (by omega)]
      exact ih m k d hd h

theorem balanced_append {a b : String} (ha : Balanced a) (hb : Balanced b) :
    Balanced (a ++ b) := by
  unfold Balanced at *
  rw [String.data_append, balAux_append, ha]
  exact hb

theorem balanced_wrap {e : String} (he : Balanced e) :
    Balanced ("(" ++ e ++ ")") := by
  have h1 : balAux e.data 1 = some 1 := by
    simpa using balAux_shift e.data 0 0 1 (by omega) he
  unfold Balanced
  rw [String.data_append, String.data_append]
  show balAux ((['('] ++ e.data) ++ [')']) 0 = some 0
  rw [List.append_assoc]
  show balAux ('(' :: (e.data ++ [')'])) 0 = some 0
  have : balAux ('(' :: (e.data ++ [')'])) 0 = balAux (e.data ++ [')']) 1 := by
    simp [balAux]
  rw [this, balAux_append, h1]
  rfl

theorem balAux_no_paren :
    ∀ (xs : List Char) (n : Int), 0 ≤ n →
      (∀ c ∈ xs, c ≠ '(' ∧ c ≠ ')') → balAux xs n = some n := by
  intro xs
  induction xs with
  | nil => intro n _ _; rfl
  | cons c cs ih =>
    intro n hn h
    obtain ⟨h1, h2⟩ := h c (by simp)
    simp only [balAux, if_neg h1, if_neg h2]
    rw [if_neg (by omega)]
    exact ih n hn fun x hx => h x (by simp [hx])

theorem balanced_no_paren {s : String}
    (h : ∀ c ∈ s.data, c ≠ '(' ∧ c ≠ ')') : Balanced s :=
  balAux_no_paren s.data 0 (by omega) h

theorem balanced_join :
    ∀ parts : List String, (∀ p ∈ parts, Balanced p) →
      Balanced (goJoin parts "+") := by
  intro parts
  induction parts with
  | nil => intro _; rfl
  | cons x xs ih =>
    intro h
    cases xs with
    | nil => exact h x (by simp)
    | cons y ys =>
      show Balanced (x ++ "+" ++ goJoin (y :: ys) "+")
      exact balanced_append
        (balanced_append (h x (by simp)) rfl)
        (ih fun p hp => h p (by simp [hp]))

/-- Every token of the lexer is an opening or closing parenthesis token,
or carries a value free of parenthesis characters. -/
theorem lex_WF (input : String) :
    ∀ t ∈ lex input, t.type = tokenType.tokenLParen ∨
      t.type = tokenType.tokenRParen ∨
      ∀ c ∈ t.value.data, c ≠ '(' ∧ c ≠ ')' := by
  intro t ht
  unfold lex at ht
  rcases List.mem_append.mp ht with h1 | h2
  · rcases List.mem_map.mp h1 with ⟨f, hf, rfl⟩
    have hf' : f ∈ fieldsAux (input.data.flatMap padChar) [] := by
      unfold goFields at hf
      rwa [padMeta_data] at hf
    rcases fields_pad input.data [] (by simp) f hf' with ⟨m, hm, rfl⟩ | hfree
    · simp only [metaChars, List.mem_cons, List.not_mem_nil, or_false] at hm
      rcases hm with rfl | rfl | rfl | rfl | rfl
      · exact Or.inl (by decide)
      · exact Or.inr (Or.inl (by decide))
      · exact Or.inr (Or.inr (by decide))
      · exact Or.inr (Or.inr (by decide))
      · exact Or.inr (Or.inr (by decide))
    · simp only [classifyField]
      split_ifs with hc1 hc2 hc3 hc4 hc5
      · exact Or.inr (Or.inr (by decide))
      · exact Or.inr (Or.inr (by decide))
      · exact Or.inr (Or.inr (by decide))
      · exact Or.inl rfl
      · exact Or.inr (Or.inl rfl)
      · refine Or.inr (Or.inr ?_)
        intro c hc
        have hnm := hfree c hc
        simp only [metaChars, List.mem_cons, List.not_mem_nil, or_false,
          not_or] at hnm
        exact ⟨hnm.1, hnm.2.1⟩
  · simp only [List.mem_singleton] at h2
    subst h2
    exact Or.inr (Or.inr (by decide))

/-- Every string a level of the parser returns is balanced, provided
every token is a parenthesis token or carries a parenthesis-free value
and every accumulated part is balanced. -/
theorem parse_balanced :
    ∀ (fuel : Nat) (ts : List token) (parts : List String) (s : String)
      (rest : List token),
      (∀ t ∈ ts, t.type = tokenType.tokenLParen ∨
        t.type = tokenType.tokenRParen ∨
        ∀ c ∈ t.value.data, c ≠ '(' ∧ c ≠ ')') →
      (∀ p ∈ parts, Balanced p) →
      parseFuel fuel ts parts = some (Except.ok (s, rest)) →
      Balanced s := by
  intro fuel
  induction fuel with
  | zero =>
    intro ts parts s rest _ _ h
    simp [parseFuel] at h
  | succ f ih =>
    intro ts parts s rest hts hparts h
    match ts with
    | [] =>
      simp only [parseFuel, finishLevel] at h
      split at h
      · exact absurd h (by simp)
      · simp only [Option.some.injEq, Except.ok.injEq, Prod.mk.injEq] at h
        rw [← h.1]
        exact balanced_join parts hparts
    | t :: rest0 =>
      simp only [parseFuel] at h
      split at h
      · simp only [finishLevel] at h
        split at h
        · exact absurd h (by simp)
        · simp only [Option.some.injEq, Except.ok.injEq, Prod.mk.injEq] at h
          rw [← h.1]
          exact balanced_join parts hparts
      · have hts0 : ∀ x ∈ rest0, x.type = tokenType.tokenLParen ∨
            x.type = tokenType.tokenRParen ∨
            ∀ c ∈ x.value.data, c ≠ '(' ∧ c ≠ ')' :=
          fun x hx => hts x (by simp [hx])
        have hparts' : ∀ p ∈ (if needImplicitAnd parts t.type then
            parts ++ ["AND"] else parts), Balanced p := by
          intro p hp
          split at hp
          · rcases List.mem_append.mp hp with h1 | h2
            · exact hparts p h1
            · simp only [List.mem_singleton] at h2
              subst h2
              rfl
          · exact hparts p hp
        have hvalue : ∀ c ∈ t.value.data, c ≠ '(' ∧ c ≠ ')' → True := fun _ _ _ => trivial
        split at h
        · -- LPAREN
          split at h
          · exact absurd h (by simp)
          · exact absurd h (by simp)
          · rename_i expr rest' hsub
            have hexpr : Balanced expr := ih rest0 [] expr rest' hts0 (by simp) hsub
            have hsuffix := parseFuel_suffix f rest0 [] expr rest' hsub
            have hts' : ∀ x ∈ rest', x.type = tokenType.tokenLParen ∨
                x.type = tokenType.tokenRParen ∨
                ∀ c ∈ x.value.data, c ≠ '(' ∧ c ≠ ')' :=
              fun x hx => hts0 x (hsuffix.subset hx)
            refine ih rest' _ s rest hts' ?_ h
            intro p hp
            rcases List.mem_append.mp hp with h1 | h2
            · exact hparts' p h1
            · simp only [List.mem_singleton] at h2
              subst h2
              exact balanced_wrap hexpr
        · -- IDENT
          rename_i htt
          refine ih rest0 _ s rest hts0 ?_ h
          intro p hp
          rcases List.mem_append.mp hp with h1 | h2
          · exact hparts' p h1
          · simp only [List.mem_singleton] at h2
            subst h2
            apply balanced_no_paren
            intro c hc
            rw [show ("cat:" ++ t.value).data = "cat:".data ++ t.value.data
              from String.data_append _ _] at hc
            rcases List.mem_append.mp hc with hc1 | hc2
            · have hc' : c = 'c' ∨ c = 'a' ∨ c = 't' ∨ c = ':' := by
                simpa using hc1
              rcases hc' with rfl | rfl | rfl | rfl <;>
                exact ⟨by decide, by decide⟩
            · rcases hts t (by simp) with hk | hk | hk
              · rw [hk] at htt
                cases htt
              · rw [hk] at htt
                cases htt
              · exact hk c hc2
        · -- AND
          rename_i htt
          refine ih rest0 _ s rest hts0 ?_ h
          intro p hp
          rcases List.mem_append.mp hp with h1 | h2
          · exact hparts' p h1
          · simp only [List.mem_singleton] at h2
            subst h2
            apply balanced_no_paren
            rcases hts t (by simp) with hk | hk | hk
            · rw [hk] at htt
              cases htt
            · rw [hk] at htt
              cases htt
            · exact hk
        · -- OR
          rename_i htt
          refine ih rest0 _ s rest hts0 ?_ h
          intro p hp
          rcases List.mem_append.mp hp with h1 | h2
          · exact hparts' p h1
          · simp only [List.mem_singleton] at h2
            subst h2
            apply balanced_no_paren
            rcases hts t (by simp) with hk | hk | hk
            · rw [hk] at htt
              cases htt
            · rw [hk] at htt
              cases htt
            · exact hk
        · -- NOT
          rename_i htt
          refine ih rest0 _ s rest hts0 ?_ h
          intro p hp
          rcases List.mem_append.mp hp with h1 | h2
          · exact hparts' p h1
          · simp only [List.mem_singleton] at h2
            subst h2
            apply balanced_no_paren
            rcases hts t (by simp) with hk | hk | hk
            · rw [hk] at htt
              cases htt
            · rw [hk] at htt
              cases htt
            · exact hk
        · -- unreachable default
          exact ih rest0 _ s rest hts0 hparts' h

/-- Claim C4: whenever parsing succeeds, the output is wrapped in
exactly one outer parenthesis pair and its parentheses are balanced,
with no assumption that the input's parentheses balance. -/
theorem C4_balanced_output (input out : String)
    (h : ParseReconstructCategoryExpression input = Except.ok out) :
    (∃ e, out = "(" ++ e ++ ")") ∧ Balanced out := by
  unfold ParseReconstructCategoryExpression at h
  cases hp : parseExpression (lex input) [] with
  | error e =>
    rw [hp] at h
    cases h
  | ok pr =>
    obtain ⟨expr, rest⟩ := pr
    rw [hp] at h
    simp only [Except.ok.injEq] at h
    have hfuel : parseFuel ((lex input).length + 1) (lex input) [] =
        some (Except.ok (expr, rest)) := by
      rw [parseExpression_spec, hp]
    have hb : Balanced expr :=
      parse_balanced ((lex input).length + 1) (lex input) [] expr rest
        (lex_WF input) (by simp) hfuel
    exact ⟨⟨expr, h.symm⟩, h ▸ balanced_wrap hb⟩

/-- Witness for C4 at an input whose parentheses do not balance. -/
theorem C4_witness :
    (∃ e, "((cat:a+AND+cat:b))" = "(" ++ e ++ ")") ∧
      Balanced "((cat:a+AND+cat:b))" :=
  C4_balanced_output "(a b" "((cat:a+AND+cat:b))" rfl

/-- General-variant identifier streams: every leaf is decorated with the
caller's prefix and suffix, with implicit ANDs in between. -/
theorem parse_idents_gen (pre suf : String) :
    ∀ (ws : List String) (fuel : Nat) (acc : List String),
      ws.length + 1 < fuel →
      parseGenFuel pre suf fuel (ws.map identTok ++ [eofTok]) acc true =
        some (goJoin (acc ++ ws.flatMap fun w => ["AND", pre ++ w ++ suf]) "+",
          [eofTok]) := by
  intro ws
  induction ws with
  | nil =>
    intro fuel acc hf
    match fuel, hf with
    | fuel + 1, _ =>
      simp only [List.map_nil, List.nil_append, List.flatMap_nil,
        List.append_nil, parseGenFuel, eofTok]
      rw [if_pos (by simp)]
      rfl
  | cons w ws ih =>
    intro fuel acc hf
    match fuel, hf with
    | fuel + 1, hf =>
      have hb : ws.length + 1 < fuel := by
        simpa using Nat.lt_of_succ_lt_succ (by simpa using hf)
      simp only [List.map_cons, List.cons_append, parseGenFuel, identTok]
      rw [if_neg (by simp), if_pos (by simp),
        ih fuel ((acc ++ ["AND"]) ++ [pre ++ w ++ suf]) hb]
      simp [List.flatMap_cons, List.append_assoc]

/-- Decorated identifiers interspersed with AND, for any decoration. -/
theorem dec_flatMap_eq_intersperse (dec : String → String) :
    ∀ (w : String) (ws : List String),
      dec w :: ws.flatMap (fun x => ["AND", dec x]) =
        List.intersperse "AND" ((w :: ws).map dec) := by
  intro w ws
  induction ws generalizing w with
  | nil => simp [List.intersperse]
  | cons w2 ws ih =>
    show dec w :: (["AND", dec w2] ++ ws.flatMap fun x => ["AND", dec x]) = _
    have hint : List.intersperse "AND" ((w :: w2 :: ws).map dec) =
        dec w :: "AND" :: List.intersperse "AND" ((w2 :: ws).map dec) := rfl
    rw [hint, ← ih w2]
    rfl

/-- The general variant on bare identifiers: every leaf is decorated as
prefix, value, suffix; operators and parentheses are never decorated. -/
theorem gen_bare (ws : List String) (pre suf : String) (hne : ws ≠ [])
    (h : ∀ w ∈ ws, w ≠ "" ∧ (∀ c ∈ w.data, goIsSpace c = false ∧ c ∉ metaChars) ∧
      goUpper w ∉ (["AND", "OR", "NOT", "+", "|", "-", "(", ")"] : List String)) :
    ParseReconstructGeneralExpression (goJoin ws " ") pre suf =
      Except.ok ("(" ++ goJoin (List.intersperse "AND"
        (ws.map fun w => pre ++ w ++ suf)) "+" ++ ")") := by
  cases ws with
  | nil => exact absurd rfl hne
  | cons w ws' =>
    have hlex := lex_bare (w :: ws') hne h
    have hwne : w ≠ "" := (h w (by simp)).1
    have hwd : w.data ≠ [] := fun he => hwne (string_eq_iff_data.mpr (by simp [he]))
    unfold ParseReconstructGeneralExpression parseExpressionGen
    rw [hlex, show ((w :: ws').map identTok ++ [eofTok]).length + 1 =
      ws'.length + 3 by simp]
    have hstep : parseGenFuel pre suf (ws'.length + 3)
        ((w :: ws').map identTok ++ [eofTok]) [] false =
        parseGenFuel pre suf (ws'.length + 2) (ws'.map identTok ++ [eofTok])
          [pre ++ w ++ suf] true := by
      show parseGenFuel pre suf (ws'.length + 2 + 1)
        (identTok w :: (ws'.map identTok ++ [eofTok])) [] false = _
      simp only [parseGenFuel, identTok]
      rw [if_neg (by simp), if_neg (by simp)]
      rfl
    rw [hstep, parse_idents_gen pre suf ws' (ws'.length + 2) [pre ++ w ++ suf]
      (by omega)]
    rw [show ([pre ++ w ++ suf] ++ ws'.flatMap fun x => ["AND", pre ++ x ++ suf]) =
      List.intersperse "AND" ((w :: ws').map fun x => pre ++ x ++ suf) from by
        rw [← dec_flatMap_eq_intersperse (fun x => pre ++ x ++ suf)]
        rfl]
    have hjoin : goJoin (List.intersperse "AND"
        ((w :: ws').map fun x => pre ++ x ++ suf)) "+" ≠ "" := by
      apply goJoin_ne_empty
      refine ⟨pre ++ w ++ suf, ?_, ?_⟩
      · rw [← dec_flatMap_eq_intersperse (fun x => pre ++ x ++ suf)]
        simp
      · apply ne_empty_of_data_ne
        simp [String.data_append, hwd]
    simp only [Option.getD_some]
    rw [if_neg hjoin]

/-- Claim C6: the general entry point decorates every leaf identifier as
prefix, value, suffix, never decorating operator keywords or structural
parentheses, and maps "a" with prefix "pre-" and suffix "-suf" to
"(pre-a-suf)". -/
theorem C6_general_decoration :
    (∀ (ws : List String) (pre suf : String), ws ≠ [] →
      (∀ w ∈ ws, w ≠ "" ∧ (∀ c ∈ w.data, goIsSpace c = false ∧ c ∉ metaChars) ∧
        goUpper w ∉ (["AND", "OR", "NOT", "+", "|", "-", "(", ")"] : List String)) →
      ParseReconstructGeneralExpression (goJoin ws " ") pre suf =
        Except.ok ("(" ++ goJoin (List.intersperse "AND"
          (ws.map fun w => pre ++ w ++ suf)) "+" ++ ")")) ∧
    ParseReconstructGeneralExpression "a" "pre-" "-suf" =
      Except.ok "(pre-a-suf)" ∧
    ParseReconstructGeneralExpression "a AND (b OR c) AND NOT d" "op12-" "-op34" =
      Except.ok
        "(op12-a-op34+AND+(op12-b-op34+OR+op12-c-op34)+AND+NOT+op12-d-op34)" ∧
    ParseReconstructGeneralExpression "" "pre-" "-suf" =
      Except.error "empty expression" :=
  ⟨fun ws pre suf hne h => gen_bare ws pre suf hne h, rfl, rfl, rfl⟩

/-- Witness for C6: one bare identifier with prefix and suffix. -/
theorem C6_witness :
    ParseReconstructGeneralExpression (goJoin ["a"] " ") "pre-" "-suf" =
      Except.ok ("(" ++ goJoin (List.intersperse "AND"
        (["a"].map fun w => "pre-" ++ w ++ "-suf")) "+" ++ ")") :=
  C6_general_decoration.1 ["a"] "pre-" "-suf" (by decide) (by decide)

/-- Claim C8: the lexer is total (every stream ends in EOF), the glued
meta-characters always tokenize standalone (every field is a lone
meta-character or free of them), classification is case-insensitive
(it depends only on the uppercased field), identifiers keep their exact
text, and a field whose uppercase text is AND, OR or NOT is always the
operator token, never an identifier. -/
theorem C8_lexer :
    lex "a+b" = [⟨tokenType.tokenIdent, "a"⟩, ⟨tokenType.tokenAnd, "AND"⟩,
      ⟨tokenType.tokenIdent, "b"⟩, ⟨tokenType.tokenEOF, ""⟩] ∧
    (∀ input : String, ∀ f ∈ goFields (padMeta input),
      (∃ c ∈ metaChars, f = String.mk [c]) ∨ ∀ c ∈ f.data, c ∉ metaChars) ∧
    (∀ f g : String, goUpper f = goUpper g →
      (classifyField f).type = (classifyField g).type) ∧
    (∀ f : String, (classifyField f).type = tokenType.tokenIdent →
      classifyField f = ⟨tokenType.tokenIdent, f⟩) ∧
    (∀ f : String, goUpper f = "AND" →
      classifyField f = ⟨tokenType.tokenAnd, "AND"⟩) ∧
    (∀ f : String, goUpper f = "OR" →
      classifyField f = ⟨tokenType.tokenOr, "OR"⟩) ∧
    (∀ f : String, goUpper f = "NOT" →
      classifyField f = ⟨tokenType.tokenNot, "NOT"⟩) ∧
    (∀ s : String, ∃ ts, lex s = ts ++ [⟨tokenType.tokenEOF, ""⟩]) := by
  refine ⟨rfl, ?_, fun f g h => classifyField_type_upper h, ?_, ?_, ?_, ?_,
    fun s => ⟨_, rfl⟩⟩
  · intro input f hf
    apply fields_pad input.data [] (by simp) f
    unfold goFields at hf
    rwa [padMeta_data] at hf
  · intro f hf
    exact classifyField_ident_value hf
  · intro f h
    simp [classifyField, h]
  · intro f h
    simp [classifyField, h]
  · intro f h
    simp [classifyField, h]

/-- Witness for C8: a mixed-case keyword is always the operator token. -/
theorem C8_witness : classifyField "anD" = ⟨tokenType.tokenAnd, "AND"⟩ :=
  C8_lexer.2.2.2.2.1 "anD" (by decide)

end OpusMCP
